import Mathlib

/-!
Shallow embedding of the `ko` probability toolkit (Rust) in Lean 4.

Numeric model: the Rust code computes with `f64`.  Every finite `f64` value is
a rational number, so field-only computations (construction, pmf, measure,
convolution, the cartesian product, the sampling walk) are embedded over `ℚ`,
exactly.  Transcendental results (log2, sqrt, real powers) are embedded over
`ℝ` with `Real.logb`, `Real.sqrt`, `Real.rpow`; these model the exact-real
semantics of the floating-point code.  Panics (failed `assert!`, `unwrap` of
an empty value, out-of-bounds indexing) are modelled by `Option`, `none`
standing for the abort.
-/

namespace Ko

/-- Tolerance `1e-10` used by the validation asserts in
`DiscreteProbabilityDistribution::new` (src/discrete_distribution.rs). -/
def tol : ℚ := 1 / 10 ^ 10

/-- `DiscreteProbabilityDistribution<T>` (src/discrete_distribution.rs):
an outcomes vector paired index-for-index with a probabilities vector. -/
structure DiscreteDist (α : Type) where
  outcomes : List α
  probabilities : List ℚ
deriving DecidableEq, Repr

/-- `DiscreteProbabilityDistribution::new`: asserts equal lengths, every
probability `>= -1e-10`, and `|sum - 1| < 1e-10`; `none` models the panic. -/
def mkDist {α : Type} (outcomes : List α) (probabilities : List ℚ) :
    Option (DiscreteDist α) :=
  if outcomes.length = probabilities.length
      ∧ (∀ p ∈ probabilities, -tol ≤ p)
      ∧ |probabilities.sum - 1| < tol then
    some ⟨outcomes, probabilities⟩
  else
    none

/-- The validity invariant checked by `new`, as a predicate on the record. -/
def ValidDist {α : Type} (d : DiscreteDist α) : Prop :=
  d.outcomes.length = d.probabilities.length
    ∧ (∀ p ∈ d.probabilities, -tol ≤ p)
    ∧ |d.probabilities.sum - 1| < tol

/-- `pmf`: probability at the first matching outcome, `0` when absent
(src/discrete_distribution.rs, `position(|y| y == x)`). -/
def pmf {α : Type} [DecidableEq α] (d : DiscreteDist α) (x : α) : ℚ :=
  match d.outcomes.findIdx? (· = x) with
  | some i => d.probabilities.getD i 0
  | none => 0

/-- `measure`: asserts the domain is duplicate-free, then sums `pmf`
over it (src/discrete_distribution.rs). -/
def measure {α : Type} [DecidableEq α] (d : DiscreteDist α) (domain : List α) :
    Option ℚ :=
  if domain.Nodup then some ((domain.map (pmf d)).sum) else none

/-- `multinomial`: outcomes are the integers `0 .. probabilities.len() - 1`. -/
def multinomial (probabilities : List ℚ) : Option (DiscreteDist ℤ) :=
  mkDist ((List.range probabilities.length).map Int.ofNat) probabilities

/-- One-argument `binomial(p)` of src/probability/discrete_distribution.rs:
the Bernoulli-style distribution `multinomial([1 - p, p])`. -/
def bernoulli (p : ℚ) : Option (DiscreteDist ℤ) :=
  multinomial [1 - p, p]

example : (bernoulli (1/2)).map (fun d => d.outcomes) = some [0, 1] := by
  simp [bernoulli, multinomial, mkDist, tol]
  norm_num [List.range_succ]

example : pmf (DiscreteDist.mk ([0, 1] : List ℤ) [1/2, 1/2]) 1 = 1/2 := by
  simp [pmf, List.findIdx?]

/-- The `cartesian_product!` macro (src/cartesian_product.rs): mixed-radix
enumeration.  `floors` is built by the source's push loop (`floors[0] = 1`,
then `floors.push(floors.last * vectors[i].len())` for `i < num_sets - 1`),
here rendered as a `scanl`.  The entry at linear index `i`, coordinate `j`,
is `vectors[j][(i / floors[j]) % vectors[j].len()]`.  (For an empty list of
vectors the source underflows `num_sets - 1`; theorems assume at least one
vector.) -/
def cartesianProduct {α : Type} [Inhabited α] (vectors : List (List α)) :
    List (List α) :=
  let numElements := vectors.foldl (fun acc x => acc * x.length) 1
  let numSets := vectors.length
  let floors : List ℕ :=
    (vectors.take (numSets - 1)).scanl (fun acc v => acc * v.length) 1
  (List.range numElements).map (fun i =>
    (List.range numSets).map (fun j =>
      (vectors.getD j []).getD
        ((i / floors.getD j 0) % (vectors.getD j []).length) default))

/-- The claim's floor products: `f 0 = 1`, `f (j+1) = f j * n j`. -/
def specFloor (sizes : List ℕ) : ℕ → ℕ
  | 0 => 1
  | j + 1 => specFloor sizes j * sizes.getD j 0

/-- The `joint_distribution!` macro (src/joint_distribution.rs) for two
distributions: cartesian product of the outcome vectors, cartesian product of
the probability vectors folded with `*`, then `new`. -/
def jointDistribution (dx dy : DiscreteDist ℤ) : Option (DiscreteDist (List ℤ)) :=
  let jointOutcomes := cartesianProduct [dx.outcomes, dy.outcomes]
  let jointProbabilities :=
    (cartesianProduct [dx.probabilities, dy.probabilities]).map
      (fun x => x.foldl (fun prod y => prod * y) 1)
  mkDist jointOutcomes jointProbabilities

/-- `discrete_convolution` (src/probability/discrete_distribution.rs):
outcomes `min..=max` of the summed supports, probability of `z` is
`Σ_k pmf_X(k) * pmf_Y(z - k)` over X's outcomes, then zero-probability
entries are filtered out.  `none` models the `unwrap` panic on an empty
outcome vector. -/
def discreteConvolution (dx dy : DiscreteDist ℤ) : Option (DiscreteDist ℤ) :=
  match dx.outcomes.min?, dy.outcomes.min?, dx.outcomes.max?, dy.outcomes.max? with
  | some mnx, some mny, some mxx, some mxy =>
    let lo : ℤ := mnx + mny
    let hi : ℤ := mxx + mxy
    let outcomes : List ℤ := (List.range (hi + 1 - lo).toNat).map (fun j => lo + j)
    let probabilities : List ℚ := outcomes.map (fun z =>
      (dx.outcomes.map (fun k => pmf dx k * pmf dy (z - k))).sum)
    let outcomes2 : List ℤ :=
      ((outcomes.zip probabilities).filter (fun zp => 0 < zp.2)).map (fun zp => zp.1)
    let probabilities2 : List ℚ := probabilities.filter (fun p => 0 < p)
    mkDist outcomes2 probabilities2
  | _, _, _, _ => none

/-- The loop body of `convoluted_binomial`/`convoluted_multinomial`: `m`
iterations of `dist = discrete_convolution(&dist, &dist)`. -/
def iterSelfConv : ℕ → Option (DiscreteDist ℤ) → Option (DiscreteDist ℤ)
  | 0, d => d
  | m + 1, d => iterSelfConv m (d.bind (fun x => discreteConvolution x x))

/-- `convoluted_binomial(n, probabilities)`
(src/probability/discrete_distribution.rs): starts from
`binomial(probabilities[1])` and runs the self-convolution loop `n - 1`
times (`for _ in 1..n`). -/
def convolutedBinomial (n : ℕ) (probabilities : List ℚ) :
    Option (DiscreteDist ℤ) :=
  iterSelfConv (n - 1) (bernoulli (probabilities.getD 1 0))

/-- Modelled from the spec: the n-fold self-convolution of a base
distribution, "apply discrete convolution to a base distribution with itself
n−1 times" — `specSelfConvIter base m` convolves the accumulated result with
the base `m` times, so the n-fold self-convolution is
`specSelfConvIter base (n - 1)`. -/
def specSelfConvIter (base : Option (DiscreteDist ℤ)) :
    ℕ → Option (DiscreteDist ℤ)
  | 0 => base
  | m + 1 =>
    (specSelfConvIter base m).bind (fun x =>
      base.bind (fun y => discreteConvolution x y))

/-- `factorial` (src/discrete_distribution.rs): `1` for `n == 0 || n == 1`,
otherwise the product of `1..=n` (empty product `1` for negative `n`). -/
def factorialI (n : ℤ) : ℤ :=
  if n = 0 ∨ n = 1 then 1
  else (((List.range (n.toNat + 1)).drop 1).map Int.ofNat).foldl (fun acc x => acc * x) 1

/-- `binomial_coeff` (src/discrete_distribution.rs): naive
`n! / (k! * (n-k)!)` in integer (truncating) division. -/
def binomialCoeff (n k : ℤ) : ℤ :=
  factorialI n / (factorialI k * factorialI (n - k))

/-- Two-argument `binomial(n, p)` (src/discrete_distribution.rs): asserts
`p ∈ [0,1]`, `0 < n ≤ 12`; outcomes are `(0..=n+1)`; probability of `k` is
`binomial_coeff(n,k) * p^k * (1-p)^(n-k)` with `powi` exponents. -/
def binomialNP (n : ℤ) (p : ℚ) : Option (DiscreteDist ℤ) :=
  if 0 ≤ p ∧ p ≤ 1 ∧ 0 < n ∧ n ≤ 12 then
    let outcomes : List ℤ := (List.range (n.toNat + 2)).map Int.ofNat
    let probabilities : List ℚ := outcomes.map (fun k =>
      (binomialCoeff n k : ℚ) * p ^ k * (1 - p) ^ (n - k))
    mkDist outcomes probabilities
  else
    none

/-- The loop of `sample` (src/probability/discrete_distribution.rs):
`while u > 0 { u -= probabilities[i]; i += 1 }` followed by the access
`outcomes[i - 1]`.  Returns the index `i - 1`; `none` models the two panics
(indexing `probabilities` past the end, and the `usize` underflow `0 - 1`
when the loop body never ran). -/
def sampleWalkGo : List ℚ → ℚ → ℕ → Option ℕ
  | [], u, i => if 0 < u then none else if i = 0 then none else some (i - 1)
  | p :: rest, u, i =>
    if 0 < u then sampleWalkGo rest (u - p) (i + 1)
    else if i = 0 then none else some (i - 1)

/-- `sample` as a function of the uniform draw `u`: the walk over the
probabilities vector starting at index 0. -/
def sampleWalk (d : DiscreteDist ℤ) (u : ℚ) : Option ℕ :=
  sampleWalkGo d.probabilities u 0

/-- `InformationUnit` (src/probability/discrete_information.rs): a tagged
logarithmic quantity, `Bit` or `Nat` variant carrying one magnitude. -/
inductive InformationUnit : Type
  | bit (x : ℝ)
  | nat (x : ℝ)

/-- `InformationUnit::apply`: transform the magnitude, keep the tag. -/
def InformationUnit.apply (u : InformationUnit) (f : ℝ → ℝ) : InformationUnit :=
  match u with
  | .bit x => .bit (f x)
  | .nat x => .nat (f x)

/-- `impl Add for InformationUnit`: mixed additions collapse to `Bit` using
the constant `E.log2()`. -/
noncomputable def InformationUnit.add (a b : InformationUnit) : InformationUnit :=
  match a, b with
  | .bit x, .bit y => .bit (x + y)
  | .nat x, .nat y => .nat (x + y)
  | .bit x, .nat y => .bit (x + y * Real.logb 2 (Real.exp 1))
  | .nat x, .bit y => .bit (x * Real.logb 2 (Real.exp 1) + y)

/-- `entropy` (src/probability/discrete_information.rs): the fold
`-(Σ p * p.log2())`, tagged `Bit`.  There is no special case for `p = 0` in
the source; over exact reals `Real.logb 2 0 = 0`, so a zero probability
contributes `0` here, whereas the floating-point source computes
`0.0 * log2(0.0) = 0.0 * -inf = NaN`. -/
noncomputable def entropy {α : Type} (d : DiscreteDist α) : InformationUnit :=
  .bit (-(d.probabilities.map (fun p : ℚ => (p : ℝ) * Real.logb 2 (p : ℝ))).sum)

/-- `kullback_leibler_divergence` (src/probability/discrete_information.rs):
sum of `p_x * (p_x / p_y).log2()` over the deduplicated union of the two
outcome vectors, tagged `Bit`.  The source iterates a `HashSet`; since real
addition is commutative the sum over any duplicate-free enumeration is the
same, and we use `List.dedup`.  Caveat: at `p_x = p_y = 0` this exact-real
term is `0` (Mathlib's conventions give `0 / 0 = 0` and `logb 2 0 = 0`),
whereas the floating-point source computes `0.0 * log2(0.0/0.0) = NaN`,
poisoning the whole sum — the same missing zero-probability special case
recorded as the C5 bug.  Theorems about this definition therefore restrict
to strictly positive probabilities, where the two semantics agree term by
term (`p / p = 1` exactly in IEEE, `log2(1.0) = 0.0`, `p * 0.0 = 0.0`). -/
noncomputable def kullbackLeiblerDivergence (dx dy : DiscreteDist ℤ) :
    InformationUnit :=
  .bit (((dx.outcomes ++ dy.outcomes).dedup).map (fun x =>
    (pmf dx x : ℝ) * Real.logb 2 ((pmf dx x : ℝ) / (pmf dy x : ℝ)))).sum

/-- `average_discrete_distributions` (src/probability/discrete_information.rs):
outcome-wise average `(pmf_x + pmf_y) / 2` over the deduplicated union of
outcomes, passed through `new` (so `none` models the panic when the averaged
probabilities fail validation). -/
def averageDiscreteDistributions (dx dy : DiscreteDist ℤ) :
    Option (DiscreteDist ℤ) :=
  let outcomes := (dx.outcomes ++ dy.outcomes).dedup
  let probabilities := outcomes.map (fun x => (pmf dx x + pmf dy x) / 2)
  mkDist outcomes probabilities

/-- `jensen_shannon_divergence` (src/probability/discrete_information.rs):
`(KL(X‖M) + KL(Y‖M)).apply(|x| x / 2)` with `M` the average distribution;
`none` models the panic inside the average's `new`. -/
noncomputable def jensenShannonDivergence (dx dy : DiscreteDist ℤ) :
    Option InformationUnit :=
  (averageDiscreteDistributions dx dy).map (fun m =>
    ((kullbackLeiblerDivergence dx m).add (kullbackLeiblerDivergence dy m)).apply
      (fun x => x / 2))

/-- `PowerLawDistribution` (src/probability/continuous_distribution.rs).
The `f64` parameters are rationals (every finite float is); `factor` is the
real `(exponent - 1) / (min_x - shift).powf(1 - exponent)` computed by
`new`. -/
structure PowerLawDistribution where
  factor : ℝ
  shift : ℚ
  exponent : ℚ
  min_x : ℚ

/-- `PowerLawDistribution::new`: asserts `exponent > 1` and
`shift < min_x`. -/
noncomputable def powerLawNew (shift exponent min_x : ℚ) :
    Option PowerLawDistribution :=
  if 1 < exponent ∧ shift < min_x then
    some ⟨((exponent : ℝ) - 1) / ((min_x : ℝ) - shift) ^ ((1 : ℝ) - exponent),
      shift, exponent, min_x⟩
  else
    none

/-- `PowerLawDistribution::pdf`: `factor * x.powf(-exponent)`. -/
noncomputable def PowerLawDistribution.pdf (d : PowerLawDistribution) (x : ℚ) : ℝ :=
  d.factor * (x : ℝ) ^ (-(d.exponent : ℝ))

/-- `PowerLawDistribution::measure`: asserts `a < b`, then
`factor * ((a - shift)^(1-exponent) - (b - shift)^(1-exponent))` with `powf`
powers. -/
noncomputable def PowerLawDistribution.measure (d : PowerLawDistribution)
    (a b : ℚ) : Option ℝ :=
  if a < b then
    some (d.factor * (((a : ℝ) - d.shift) ^ ((1 : ℝ) - d.exponent)
      - ((b : ℝ) - d.shift) ^ ((1 : ℝ) - d.exponent)))
  else
    none

/-- `PowerLawDistribution::cdf(x)` = `measure((min_x, x))`. -/
noncomputable def PowerLawDistribution.cdf (d : PowerLawDistribution) (x : ℚ) :
    Option ℝ :=
  d.measure d.min_x x

/-- Modelled from the spec: the closed-form antiderivative-based integral of
the pdf `factor * x^(-exponent)` over `(a, b)`: with antiderivative
`F x = factor * x^(1-exponent) / (1-exponent)`, the integral is
`F b - F a`. -/
noncomputable def specAntiderivIntegralPdf (d : PowerLawDistribution)
    (a b : ℚ) : ℝ :=
  d.factor * (b : ℝ) ^ ((1 : ℝ) - d.exponent) / ((1 : ℝ) - d.exponent)
    - d.factor * (a : ℝ) ^ ((1 : ℝ) - d.exponent) / ((1 : ℝ) - d.exponent)

/-- The constant `Z = 1.96` of src/binomial_testing.rs. -/
noncomputable def wilsonZ : ℝ := 196 / 100

/-- `estimate_binomial` (src/binomial_testing.rs): the Bernoulli-style
binomial built from the sample mean `Σ samples / n`. -/
def estimateBinomial (samples : List ℤ) : Option (DiscreteDist ℤ) :=
  bernoulli (((samples.sum : ℤ) : ℚ) / (samples.length : ℚ))

/-- `validate_binomial` (src/binomial_testing.rs): `h` is
`estimate_binomial(samples).probabilities()[1]`, `n` the sample count; the
Wilson bounds are
`(2hn + z² ∓ √(z⁴ + 4hnz² - 4h²nz²)) / (2(n + z²))`, and the test returns
whether `test_dist.probabilities()[1]` lies within `[minP, maxP]`.  The
returned boolean is modelled as a `Prop`; `none` models the panic inside
`estimate_binomial`'s constructor. -/
noncomputable def validateBinomial (testDist : DiscreteDist ℤ)
    (samples : List ℤ) : Option Prop :=
  (estimateBinomial samples).map (fun binomDist =>
    let h : ℝ := (binomDist.probabilities.getD 1 0 : ℝ)
    let n : ℝ := (samples.length : ℝ)
    let minP : ℝ := (2 * h * n + wilsonZ ^ 2
      - Real.sqrt (wilsonZ ^ 4 + 4 * h * n * wilsonZ ^ 2
        - 4 * h ^ 2 * n * wilsonZ ^ 2)) / (2 * (n + wilsonZ ^ 2))
    let maxP : ℝ := (2 * h * n + wilsonZ ^ 2
      + Real.sqrt (wilsonZ ^ 4 + 4 * h * n * wilsonZ ^ 2
        - 4 * h ^ 2 * n * wilsonZ ^ 2)) / (2 * (n + wilsonZ ^ 2))
    minP ≤ (testDist.probabilities.getD 1 0 : ℝ)
      ∧ (testDist.probabilities.getD 1 0 : ℝ) ≤ maxP)

/-- Modelled from the spec: the sample mean `h = mean(samples)`. -/
def specMean (samples : List ℤ) : ℚ :=
  ((samples.sum : ℤ) : ℚ) / (samples.length : ℚ)

/-- Modelled from the spec: the lower Wilson-score bound
`(2hn + z² - √(z⁴ + 4hnz² - 4h²nz²)) / (2(n + z²))` at `z = 1.96`. -/
noncomputable def specWilsonMinP (h n : ℝ) : ℝ :=
  (2 * h * n + wilsonZ ^ 2 - Real.sqrt (wilsonZ ^ 4 + 4 * h * n * wilsonZ ^ 2
    - 4 * h ^ 2 * n * wilsonZ ^ 2)) / (2 * (n + wilsonZ ^ 2))

/-- Modelled from the spec: the upper Wilson-score bound
`(2hn + z² + √(z⁴ + 4hnz² - 4h²nz²)) / (2(n + z²))` at `z = 1.96`. -/
noncomputable def specWilsonMaxP (h n : ℝ) : ℝ :=
  (2 * h * n + wilsonZ ^ 2 + Real.sqrt (wilsonZ ^ 4 + 4 * h * n * wilsonZ ^ 2
    - 4 * h ^ 2 * n * wilsonZ ^ 2)) / (2 * (n + wilsonZ ^ 2))

/-- `ks_evaluate_estimated_cdf` (src/probability/continuous_testing.rs):
filter the control points with x-value `<= x`, take the last, unwrap its
y-value; `none` models the `unwrap` panic on an empty filter result. -/
def ksEvaluateEstimatedCdf (estDist : List (ℚ × ℚ)) (x : ℚ) : Option ℚ :=
  ((estDist.filter (fun p => p.1 ≤ x)).getLast?).map Prod.snd

section Claims

/-! Helper lemmas (shared; not claim theorems). -/

theorem pmf_nil {α : Type} [DecidableEq α] (ps : List ℚ) (x : α) :
    pmf ⟨[], ps⟩ x = 0 := by
  simp [pmf]

theorem pmf_cons {α : Type} [DecidableEq α] (y : α) (ys : List α) (ps : List ℚ)
    (x : α) :
    pmf ⟨y :: ys, ps⟩ x = if y = x then ps.getD 0 0 else pmf ⟨ys, ps.tail⟩ x := by
  unfold pmf
  rw [List.findIdx?_cons]
  by_cases h : y = x
  · simp [h]
  · have hd : (decide (y = x)) = false := by simp [h]
    rw [hd]
    simp only [Bool.false_eq_true, if_false]
    cases hfi : List.findIdx? (fun b => decide (b = x)) ys with
    | none => simp [pmf, hfi, h]
    | some i =>
      cases ps with
      | nil => simp [pmf, hfi, h]
      | cons p ps' => simp [pmf, hfi, h]

theorem binomialCoeff_one_zero : binomialCoeff 1 0 = 1 := by decide

theorem binomialCoeff_one_one : binomialCoeff 1 1 = 1 := by decide

theorem binomialCoeff_one_two : binomialCoeff 1 2 = 0 := by decide

/-- C2.  The two-argument combinatorial constructor `binomial(n, p)`
(src/discrete_distribution.rs) does NOT return outcomes `0..n`: at `n = 1`,
`p = 1/2` its outcome vector is `[0, 1, 2]` (the source iterates `0..=n+1`),
with an extra outcome `n + 1` of probability `0`, contradicting the module's
own documentation ("The outcomes are the integers from 0 to n") and the
claim. -/
theorem binomialNP_extra_outcome_bug :
    (binomialNP 1 (1/2)).map (fun d => d.outcomes) = some [0, 1, 2]
      ∧ (binomialNP 1 (1/2)).map (fun d => d.probabilities) = some [1/2, 1/2, 0]
      ∧ (binomialNP 1 (1/2)).map (fun d => d.outcomes) ≠ some [0, 1] := by
  have houtc : (List.range ((1:ℤ).toNat + 2)).map Int.ofNat = [0, 1, 2] := by decide
  have heval :
      (binomialNP 1 (1/2)).map (fun d => d.outcomes) = some [0, 1, 2]
        ∧ (binomialNP 1 (1/2)).map (fun d => d.probabilities)
          = some [1/2, 1/2, 0] := by
    rw [binomialNP, if_pos (by norm_num), houtc]
    simp only [List.map_cons, List.map_nil]
    rw [binomialCoeff_one_zero, binomialCoeff_one_one, binomialCoeff_one_two]
    norm_num [mkDist, tol]
  refine ⟨heval.1, heval.2, ?_⟩
  rw [heval.1]
  simp

theorem bernoulli_half : bernoulli (1/2) = some ⟨[0, 1], [1/2, 1/2]⟩ := by
  rw [bernoulli, multinomial, mkDist, if_pos (by norm_num [tol])]
  norm_num [List.range_succ]

theorem conv_bern_bern :
    discreteConvolution ⟨[0, 1], [1/2, 1/2]⟩ ⟨[0, 1], [1/2, 1/2]⟩
      = some ⟨[0, 1, 2], [1/4, 1/2, 1/4]⟩ := by
  norm_num [discreteConvolution, pmf_cons, pmf_nil, mkDist, tol, List.range_succ,
    List.filter]

theorem conv_tri_tri :
    discreteConvolution ⟨[0, 1, 2], [1/4, 1/2, 1/4]⟩ ⟨[0, 1, 2], [1/4, 1/2, 1/4]⟩
      = some ⟨[0, 1, 2, 3, 4], [1/16, 1/4, 3/8, 1/4, 1/16]⟩ := by
  norm_num [discreteConvolution, pmf_cons, pmf_nil, mkDist, tol, List.range_succ,
    List.filter]

theorem conv_tri_bern :
    discreteConvolution ⟨[0, 1, 2], [1/4, 1/2, 1/4]⟩ ⟨[0, 1], [1/2, 1/2]⟩
      = some ⟨[0, 1, 2, 3], [1/8, 3/8, 3/8, 1/8]⟩ := by
  norm_num [discreteConvolution, pmf_cons, pmf_nil, mkDist, tol, List.range_succ,
    List.filter]

/-- C3.  `convoluted_binomial(n, ..)` convolves the *current* distribution
with itself on every loop iteration (`dist = discrete_convolution(&dist,
&dist)`), so for `n = 3`, `p = 0.5` it returns the 4-fold self-convolution
`Binomial(4, 0.5)` (probabilities `[1/16, 1/4, 3/8, 1/4, 1/16]`) instead of
the 3-fold self-convolution `Binomial(3, 0.5)` (probabilities
`[1/8, 3/8, 3/8, 1/8]`) asserted by the claim and by the repository's own
test `test_distributions`. -/
theorem convolutedBinomial_doubling_bug :
    convolutedBinomial 3 [1/2, 1/2]
        = some ⟨[0, 1, 2, 3, 4], [1/16, 1/4, 3/8, 1/4, 1/16]⟩
      ∧ specSelfConvIter (bernoulli (1/2)) 2
        = some ⟨[0, 1, 2, 3], [1/8, 3/8, 3/8, 1/8]⟩
      ∧ convolutedBinomial 3 [1/2, 1/2] ≠ specSelfConvIter (bernoulli (1/2)) 2 := by
  have h1 : convolutedBinomial 3 [1/2, 1/2]
      = some ⟨[0, 1, 2, 3, 4], [1/16, 1/4, 3/8, 1/4, 1/16]⟩ := by
    show iterSelfConv 2 (bernoulli (List.getD [1/2, 1/2] 1 0))
      = some ⟨[0, 1, 2, 3, 4], [1/16, 1/4, 3/8, 1/4, 1/16]⟩
    rw [show List.getD [(1:ℚ)/2, 1/2] 1 0 = 1/2 from rfl, bernoulli_half]
    have step1 : iterSelfConv 2 (some (⟨[0, 1], [1/2, 1/2]⟩ : DiscreteDist ℤ))
        = iterSelfConv 1
            (discreteConvolution ⟨[0, 1], [1/2, 1/2]⟩ ⟨[0, 1], [1/2, 1/2]⟩) := rfl
    rw [step1, conv_bern_bern]
    have step2 :
        iterSelfConv 1 (some (⟨[0, 1, 2], [1/4, 1/2, 1/4]⟩ : DiscreteDist ℤ))
          = discreteConvolution ⟨[0, 1, 2], [1/4, 1/2, 1/4]⟩
              ⟨[0, 1, 2], [1/4, 1/2, 1/4]⟩ := rfl
    rw [step2, conv_tri_tri]
  have h2 : specSelfConvIter (bernoulli (1/2)) 2
      = some ⟨[0, 1, 2, 3], [1/8, 3/8, 3/8, 1/8]⟩ := by
    rw [bernoulli_half]
    have s1 : specSelfConvIter (some (⟨[0, 1], [1/2, 1/2]⟩ : DiscreteDist ℤ)) 1
        = discreteConvolution ⟨[0, 1], [1/2, 1/2]⟩ ⟨[0, 1], [1/2, 1/2]⟩ := rfl
    have s2 : specSelfConvIter (some (⟨[0, 1], [1/2, 1/2]⟩ : DiscreteDist ℤ)) 2
        = (specSelfConvIter (some (⟨[0, 1], [1/2, 1/2]⟩ : DiscreteDist ℤ)) 1).bind
            (fun x => (some (⟨[0, 1], [1/2, 1/2]⟩ : DiscreteDist ℤ)).bind
              (fun y => discreteConvolution x y)) := rfl
    rw [s2, s1, conv_bern_bern]
    show discreteConvolution ⟨[0, 1, 2], [1/4, 1/2, 1/4]⟩ ⟨[0, 1], [1/2, 1/2]⟩
      = some ⟨[0, 1, 2, 3], [1/8, 3/8, 3/8, 1/8]⟩
    exact conv_tri_bern
  refine ⟨h1, h2, ?_⟩
  rw [h1, h2]
  intro hc
  have houtc := congrArg (fun o => o.map (fun d => d.outcomes)) hc
  simp only [Option.map_some] at houtc
  have : ([0, 1, 2, 3, 4] : List ℤ) = [0, 1, 2, 3] := by
    exact Option.some_injective _ houtc
  exact absurd this (by decide)

/-- C9.  The sampling walk has no final-index clamp: on the valid
distribution `multinomial([0.5, 0.5])` the uniform draw `u = 0` (possible,
since `u ∈ [0,1)`) skips the loop entirely and the source then evaluates
`outcomes[0 - 1]`, a `usize` underflow panic; and on the valid distribution
with probabilities `[1/2, 1/2 - 1e-11]` (sum within the `1e-10` tolerance
but below 1) the draw `u = 1 - 1e-12` walks past the end of the
probabilities vector.  Both aborts are `none` here. -/
theorem sampleWalk_no_clamp_bug :
    mkDist ([0, 1] : List ℤ) [1/2, 1/2]
        = some ⟨[0, 1], [1/2, 1/2]⟩
      ∧ sampleWalk ⟨[0, 1], [1/2, 1/2]⟩ 0 = none
      ∧ mkDist ([0, 1] : List ℤ) [1/2, 1/2 - 1/10^11]
        = some ⟨[0, 1], [1/2, 1/2 - 1/10^11]⟩
      ∧ sampleWalk ⟨[0, 1], [1/2, 1/2 - 1/10^11]⟩ (1 - 1/10^12) = none := by
  refine ⟨?_, ?_, ?_, ?_⟩
  · norm_num [mkDist, tol]
  · norm_num [sampleWalk, sampleWalkGo]
  · norm_num [mkDist, tol, abs_lt]
  · norm_num [sampleWalk, sampleWalkGo]

/-- C10.  `ks_evaluate_estimated_cdf` on a non-empty, strictly-x-sorted
control-point list: for a query `x` at or above the smallest x-value it
returns the y-value of the (unique, maximal) control point whose x-value is
`<= x`; for a query strictly below every control point the filter is empty
and the source `unwrap`s `None` (a panic, `none` here) instead of returning
0. -/
theorem ksEvaluateEstimatedCdf_spec (est : List (ℚ × ℚ)) (x : ℚ)
    (hne : est ≠ []) (hsort : List.Chain' (fun p q => p.1 < q.1) est) :
    ((est.head hne).1 ≤ x →
      ∃ p ∈ est, p.1 ≤ x ∧ (∀ q ∈ est, q.1 ≤ x → q.1 ≤ p.1)
        ∧ ksEvaluateEstimatedCdf est x = some p.2)
    ∧ ((∀ p ∈ est, x < p.1) → ksEvaluateEstimatedCdf est x = none) := by
  constructor
  · intro hhead
    set F := est.filter (fun p => p.1 ≤ x) with hF
    have hFne : F ≠ [] := by
      have : est.head hne ∈ F := by
        rw [hF, List.mem_filter]
        exact ⟨List.head_mem hne, by simpa using hhead⟩
      exact List.ne_nil_of_mem this
    refine ⟨F.getLast hFne, ?_, ?_, ?_, ?_⟩
    · exact (List.mem_filter.mp (List.getLast_mem hFne)).1
    · simpa using (List.mem_filter.mp (List.getLast_mem hFne)).2
    · intro q hq hqx
      have hqF : q ∈ F := List.mem_filter.mpr ⟨hq, by simpa using hqx⟩
      haveI : IsTrans (ℚ × ℚ) (fun p q : ℚ × ℚ => p.1 < q.1) :=
        ⟨fun _ _ _ hab hbc => lt_trans hab hbc⟩
      have hchainF : List.Chain' (fun p q : ℚ × ℚ => p.1 < q.1) F :=
        List.Chain'.sublist hsort (List.filter_sublist est)
      have hpw : List.Pairwise (fun p q : ℚ × ℚ => p.1 < q.1) F :=
        List.chain'_iff_pairwise.mp hchainF
      have hdecomp : F.dropLast ++ [F.getLast hFne] = F :=
        List.dropLast_append_getLast hFne
      rw [← hdecomp] at hpw
      rcases (List.mem_append.mp (hdecomp ▸ hqF)) with hq1 | hq2
      · exact le_of_lt ((List.pairwise_append.mp hpw).2.2 q hq1 _ (by simp))
      · rw [List.mem_singleton.mp hq2]
    · rw [ksEvaluateEstimatedCdf, ← hF, List.getLast?_eq_getLast F hFne]
      rfl
  · intro hbelow
    have hfil : est.filter (fun p => p.1 ≤ x) = [] := by
      rw [List.filter_eq_nil_iff]
      intro a ha
      simpa using not_le.mpr (hbelow a ha)
    rw [ksEvaluateEstimatedCdf, hfil]
    rfl

/-- Witness for C10 at the concrete list `[(0, 1/2), (1, 1)]` with queries
`x = 2` (returns the last y-value `1`) and `x = -1` (panics). -/
theorem ksEvaluateEstimatedCdf_spec_witness :
    (∃ p ∈ [((0:ℚ), (1:ℚ)/2), (1, 1)], p.1 ≤ 2
        ∧ (∀ q ∈ [((0:ℚ), (1:ℚ)/2), (1, 1)], q.1 ≤ 2 → q.1 ≤ p.1)
        ∧ ksEvaluateEstimatedCdf [((0:ℚ), (1:ℚ)/2), (1, 1)] 2 = some p.2)
      ∧ ksEvaluateEstimatedCdf [((0:ℚ), (1:ℚ)/2), (1, 1)] (-1) = none := by
  constructor
  · exact (ksEvaluateEstimatedCdf_spec [((0:ℚ), (1:ℚ)/2), (1, 1)] 2
      (by simp) (by norm_num [List.chain'_cons, List.chain'_singleton])).1
      (by norm_num)
  · exact (ksEvaluateEstimatedCdf_spec [((0:ℚ), (1:ℚ)/2), (1, 1)] (-1)
      (by simp) (by norm_num [List.chain'_cons, List.chain'_singleton])).2
      (by norm_num [List.forall_mem_cons])

theorem powerLawNew_013 : powerLawNew 0 3 1 = some ⟨2, 0, 3, 1⟩ := by
  rw [powerLawNew, if_pos (by norm_num)]
  have hb : ((1 : ℚ) : ℝ) - ((0 : ℚ) : ℝ) = 1 := by norm_num
  simp only [PowerLawDistribution.mk.injEq, Option.some.injEq]
  refine ⟨?_, by norm_num, by norm_num, by norm_num⟩
  rw [hb, Real.one_rpow]
  norm_num

/-- C4.  The power-law `measure` is not the antiderivative-based integral of
the pdf: for `PowerLawDistribution(shift = 0, exponent = 3, min_x = 1)` the
code's `measure((1, 2))` is `3/2` (already an impossible probability mass,
and `cdf(x) = measure((min_x, x))` tends to `exponent - 1 = 2`, not `1`),
while the integral of the pdf `factor * x^(-3)` over `(1, 2)` is `3/4`.
The code's `measure` is also inconsistent with its own `sample`
(inverse-transform of the correctly normalized shifted power law). -/
theorem powerLaw_measure_not_integral_bug :
    ∃ d, powerLawNew 0 3 1 = some d
      ∧ d.measure 1 2 = some (3/2)
      ∧ specAntiderivIntegralPdf d 1 2 = 3/4
      ∧ ((3 : ℝ)/2) ≠ 3/4 := by
  refine ⟨⟨2, 0, 3, 1⟩, powerLawNew_013, ?_, ?_, by norm_num⟩
  · rw [PowerLawDistribution.measure, if_pos (by norm_num)]
    have he : (1 : ℝ) - (((3 : ℚ) : ℝ)) = ((-2 : ℤ) : ℝ) := by push_cast; ring
    have h1 : ((1 : ℚ) : ℝ) - ((0 : ℚ) : ℝ) = 1 := by norm_num
    have h2 : ((2 : ℚ) : ℝ) - ((0 : ℚ) : ℝ) = 2 := by norm_num
    rw [show ((⟨2, 0, 3, 1⟩ : PowerLawDistribution).exponent : ℚ) = 3 from rfl]
    rw [show ((⟨2, 0, 3, 1⟩ : PowerLawDistribution).shift : ℚ) = 0 from rfl]
    rw [show (⟨2, 0, 3, 1⟩ : PowerLawDistribution).factor = 2 from rfl]
    rw [h1, h2, he, Real.rpow_intCast, Real.rpow_intCast]
    norm_num
  · rw [specAntiderivIntegralPdf]
    have he : (1 : ℝ) - (((3 : ℚ) : ℝ)) = ((-2 : ℤ) : ℝ) := by push_cast; ring
    rw [show ((⟨2, 0, 3, 1⟩ : PowerLawDistribution).exponent : ℚ) = 3 from rfl]
    rw [show (⟨2, 0, 3, 1⟩ : PowerLawDistribution).factor = 2 from rfl]
    rw [he, Real.rpow_intCast, Real.rpow_intCast]
    push_cast
    norm_num

/-- C5 (exact-real semantics).  The entropy of the uniform multinomial over
`2^k` outcomes is exactly `k`, tagged `Bit`.  Note: this holds in the
exact-real embedding, where the `p = 0` limit convention gives
`0 * logb 2 0 = 0`; the floating-point source has no `p = 0` special case
and computes `0.0 * log2(0.0) = NaN` on any valid distribution containing a
zero probability (e.g. `multinomial([0.0, 1.0])`). -/
theorem entropy_uniform_two_pow (k : ℕ) :
    (multinomial (List.replicate (2^k) ((1:ℚ)/2^k))).map entropy
      = some (InformationUnit.bit (k : ℝ)) := by
  have hq : (0:ℚ) < (2:ℚ)^k := by positivity
  have hsum : (List.replicate (2^k) ((1:ℚ)/2^k)).sum = 1 := by
    rw [List.sum_replicate, nsmul_eq_mul]
    push_cast
    field_simp
  rw [multinomial, mkDist, if_pos ?hcond]
  case hcond =>
    refine ⟨by simp, ?_, by rw [hsum]; norm_num [tol]⟩
    intro p hp
    rw [List.eq_of_mem_replicate hp]
    have h2 : (0:ℚ) < tol := by norm_num [tol]
    have h3 : (0:ℚ) < 1/2^k := by positivity
    linarith
  refine congrArg some ?_
  rw [entropy]
  have hcast : (((1:ℚ)/2^k : ℚ) : ℝ) = ((2:ℝ)^k)⁻¹ := by
    push_cast
    rw [one_div]
  show InformationUnit.bit _ = InformationUnit.bit _
  congr 1
  rw [List.map_replicate, List.sum_replicate, nsmul_eq_mul, hcast,
    Real.logb_inv, Real.logb_pow, Real.logb_self_eq_one (by norm_num)]
  have hr : ((2:ℝ)^k) ≠ 0 := by positivity
  push_cast
  field_simp

theorem sum01_bounds (l : List ℤ) (h : ∀ s ∈ l, s = 0 ∨ s = 1) :
    0 ≤ l.sum ∧ l.sum ≤ (l.length : ℤ) := by
  induction l with
  | nil => simp
  | cons a t ih =>
    rw [List.forall_mem_cons] at h
    have ht := ih h.2
    rcases h.1 with ha | ha <;>
      · rw [ha]
        simp only [List.sum_cons, List.length_cons]
        push_cast
        omega

/-- C8.  `validate_binomial` computes `h` as the sample mean (via the
`probabilities()[1]` of the Bernoulli-style binomial built by
`estimate_binomial`), forms the Wilson-score bounds
`(2hn + z² ∓ √(z⁴ + 4hnz² - 4h²nz²)) / (2(n + z²))` at `z = 1.96`, and
returns true exactly when the test distribution's success probability
(`probabilities()[1]`) lies within `[minP, maxP]`. -/
theorem validateBinomial_wilson (testDist : DiscreteDist ℤ) (samples : List ℤ)
    (htwo : testDist.probabilities.length = 2) (hne : samples ≠ [])
    (h01 : ∀ s ∈ samples, s = 0 ∨ s = 1) :
    validateBinomial testDist samples
      = some (specWilsonMinP ((specMean samples : ℚ) : ℝ) (samples.length : ℝ)
            ≤ (testDist.probabilities.getD 1 0 : ℝ)
          ∧ (testDist.probabilities.getD 1 0 : ℝ)
            ≤ specWilsonMaxP ((specMean samples : ℚ) : ℝ) (samples.length : ℝ)) := by
  have hlen : 0 < samples.length := List.length_pos.mpr hne
  have hlenq : (0:ℚ) < (samples.length : ℚ) := by exact_mod_cast hlen
  have hb := sum01_bounds samples h01
  set p : ℚ := ((samples.sum : ℤ) : ℚ) / (samples.length : ℚ) with hp
  have hp0 : 0 ≤ p := by
    apply div_nonneg _ (le_of_lt hlenq)
    exact_mod_cast hb.1
  have hp1 : p ≤ 1 := by
    rw [hp, div_le_one hlenq]
    exact_mod_cast hb.2
  have htol : (0:ℚ) < tol := by norm_num [tol]
  have hest : estimateBinomial samples = some ⟨[0, 1], [1 - p, p]⟩ := by
    rw [estimateBinomial, bernoulli, multinomial, mkDist, if_pos ?hc]
    case hc =>
      refine ⟨by simp, ?_, ?_⟩
      · intro q hq
        rcases List.mem_cons.mp hq with h1 | h1
        · rw [h1]; linarith
        · rw [List.mem_singleton.mp h1]; linarith
      · have : ([1 - p, p] : List ℚ).sum = 1 := by
          simp
        rw [this]
        simpa using htol
    norm_num [List.range_succ]
    rw [hp]
    push_cast
    ring
  rw [validateBinomial, hest]
  refine congrArg some ?_
  have hget : List.getD [1 - p, p] 1 0 = p := by simp
  show (let h : ℝ := ((List.getD [1 - p, p] 1 0 : ℚ) : ℝ); _) = _
  rw [hget]
  rfl

/-- Witness for C8: samples `[1, 0, 1, 1]` (mean `3/4`) against the
Bernoulli test distribution with success probability `1/2`. -/
theorem validateBinomial_wilson_witness :
    validateBinomial ⟨[0, 1], [1/2, 1/2]⟩ [1, 0, 1, 1]
      = some (specWilsonMinP ((specMean [1, 0, 1, 1] : ℚ) : ℝ)
            ((([1, 0, 1, 1] : List ℤ).length : ℕ) : ℝ)
            ≤ ((DiscreteDist.probabilities ⟨[0, 1], [1/2, 1/2]⟩).getD 1 0 : ℝ)
          ∧ (((DiscreteDist.probabilities ⟨[0, 1], [1/2, 1/2]⟩).getD 1 0 : ℚ) : ℝ)
            ≤ specWilsonMaxP ((specMean [1, 0, 1, 1] : ℚ) : ℝ)
              ((([1, 0, 1, 1] : List ℤ).length : ℕ) : ℝ)) := by
  exact validateBinomial_wilson ⟨[0, 1], [1/2, 1/2]⟩ [1, 0, 1, 1]
    (by simp) (by simp) (by decide)

theorem foldl_mul_length {α : Type} (vs : List (List α)) :
    vs.foldl (fun acc x => acc * x.length) 1 = (vs.map List.length).prod := by
  rw [List.prod_eq_foldl, List.foldl_map]

theorem specFloor_eq_take_prod (ns : List ℕ) (j : ℕ) (hj : j ≤ ns.length) :
    specFloor ns j = (ns.take j).prod := by
  induction j with
  | zero => simp [specFloor]
  | succ j ih =>
    have hjlt : j < ns.length := Nat.lt_of_succ_le hj
    rw [specFloor, ih (le_of_lt hjlt), List.take_succ, List.prod_append]
    congr 1
    rw [List.getElem?_eq_getElem hjlt]
    simp [List.getD_eq_getElem?_getD, List.getElem?_eq_getElem hjlt]

theorem scanl_mul_length_getD {α : Type} (l : List (List α)) (b : ℕ) (j : ℕ)
    (hj : j ≤ l.length) :
    (l.scanl (fun acc v => acc * v.length) b).getD j 0
      = b * ((l.map List.length).take j).prod := by
  induction l generalizing b j with
  | nil =>
    have hj0 : j = 0 := Nat.le_zero.mp hj
    subst hj0
    simp [List.scanl]
  | cons v t ih =>
    rw [List.scanl_cons]
    cases j with
    | zero => simp
    | succ j =>
      have hj' : j ≤ t.length := Nat.le_of_succ_le_succ hj
      show (List.scanl (fun acc v => acc * v.length) (b * v.length) t).getD j 0 = _
      rw [ih (b * v.length) j hj', List.map_cons, List.take_succ_cons,
        List.prod_cons]
      ring

/-- C1.  The cartesian product has length `∏ nᵢ`, its entry at linear index
`i`, coordinate `j`, is sequence `j` at index `(i / f_j) % n_j` with the
claim's floor products `f₀ = 1, f_{j+1} = f_j · n_j`, and the concrete
product of `[1,2]` and `[4,5]` is exactly `[[1,4],[2,4],[1,5],[2,5]]`. -/
theorem cartesianProduct_mixed_radix (vs : List (List ℤ))
    (hvs : vs ≠ []) (hall : ∀ l ∈ vs, l ≠ []) :
    (cartesianProduct vs).length = (vs.map List.length).prod
      ∧ (∀ i < (vs.map List.length).prod, ∀ j < vs.length,
          ((cartesianProduct vs).getD i []).getD j default
            = (vs.getD j []).getD
                ((i / specFloor (vs.map List.length) j)
                  % (vs.getD j []).length) default)
      ∧ cartesianProduct [[1, 2], [4, 5]]
          = [[(1:ℤ), 4], [2, 4], [1, 5], [2, 5]] := by
  refine ⟨?_, ?_, by decide⟩
  · rw [cartesianProduct]
    simp only [List.length_map, List.length_range]
    exact foldl_mul_length vs
  · intro i hi j hj
    have hiN : i < vs.foldl (fun acc x => acc * x.length) 1 := by
      rw [foldl_mul_length vs]
      exact hi
    have houter : ((List.range (vs.foldl (fun acc x => acc * x.length) 1)).map
        (fun i => (List.range vs.length).map (fun j =>
          (vs.getD j []).getD
            ((i / ((vs.take (vs.length - 1)).scanl
              (fun acc v => acc * v.length) 1).getD j 0)
              % (vs.getD j []).length) default))).getD i []
        = (List.range vs.length).map (fun j =>
            (vs.getD j []).getD
              ((i / ((vs.take (vs.length - 1)).scanl
                (fun acc v => acc * v.length) 1).getD j 0)
                % (vs.getD j []).length) default) := by
      rw [List.getD_eq_getElem?_getD, List.getElem?_map, List.getElem?_range hiN]
      rfl
    have hinner : ((List.range vs.length).map (fun j =>
        (vs.getD j []).getD
          ((i / ((vs.take (vs.length - 1)).scanl
            (fun acc v => acc * v.length) 1).getD j 0)
            % (vs.getD j []).length) default)).getD j default
        = (vs.getD j []).getD
            ((i / ((vs.take (vs.length - 1)).scanl
              (fun acc v => acc * v.length) 1).getD j 0)
              % (vs.getD j []).length) default := by
      rw [List.getD_eq_getElem?_getD, List.getElem?_map, List.getElem?_range hj]
      rfl
    show ((((List.range (vs.foldl (fun acc x => acc * x.length) 1)).map
        (fun i => (List.range vs.length).map (fun j =>
          (vs.getD j []).getD
            ((i / ((vs.take (vs.length - 1)).scanl
              (fun acc v => acc * v.length) 1).getD j 0)
              % (vs.getD j []).length) default))).getD i []).getD j default) = _
    rw [houter, hinner]
    have hjle : j ≤ (vs.take (vs.length - 1)).length := by
      rw [List.length_take]
      omega
    rw [scanl_mul_length_getD _ 1 j hjle, one_mul, List.map_take,
      List.take_take, min_eq_left (by omega : j ≤ vs.length - 1),
      ← specFloor_eq_take_prod (vs.map List.length) j
        (by rw [List.length_map]; omega)]

/-- Witness for C1 at `[[1,2],[4,5]]`: entry 2 (= `[1,5]`) coordinate 1 is
sequence 1 at index `(2 / f₁) % 2 = 1`, i.e. `5`. -/
theorem cartesianProduct_mixed_radix_witness :
    (cartesianProduct [[1, 2], [4, 5]]).length
        = (([[1, 2], [4, 5]] : List (List ℤ)).map List.length).prod
      ∧ ((cartesianProduct [[(1:ℤ), 2], [4, 5]]).getD 2 []).getD 1 default
          = (([[(1:ℤ), 2], [4, 5]] : List (List ℤ)).getD 1 []).getD
              ((2 / specFloor (([[(1:ℤ), 2], [4, 5]] : List (List ℤ)).map
                List.length) 1) % 2) default := by
  have h := cartesianProduct_mixed_radix [[1, 2], [4, 5]] (by decide) (by decide)
  refine ⟨h.1, ?_⟩
  have h2 := h.2.1 2 (by decide) 1 (by decide)
  exact h2

theorem pmf_eq_zero_of_not_mem {α : Type} [DecidableEq α] :
    ∀ (os : List α) (ps : List ℚ) (x : α), x ∉ os → pmf ⟨os, ps⟩ x = 0
  | [], ps, x, _ => pmf_nil ps x
  | y :: ys, ps, x, hx => by
    rw [pmf_cons, if_neg (fun h => hx (by rw [← h]; exact List.mem_cons_self y ys))]
    exact pmf_eq_zero_of_not_mem ys ps.tail x (fun h => hx (List.mem_cons_of_mem y h))

theorem pmf_mk_map {α : Type} [DecidableEq α] :
    ∀ (L : List α) (g : α → ℚ) (x : α),
      pmf ⟨L, L.map g⟩ x = if x ∈ L then g x else 0
  | [], g, x => by simp [pmf_nil]
  | y :: ys, g, x => by
    rw [List.map_cons, pmf_cons]
    by_cases h : y = x
    · subst h
      simp
    · rw [if_neg h]
      show pmf ⟨ys, ys.map g⟩ x = _
      rw [pmf_mk_map ys g x]
      by_cases hm : x ∈ ys
      · rw [if_pos hm, if_pos (List.mem_cons_of_mem y hm)]
      · rw [if_neg hm, if_neg ?hnc]
        case hnc =>
          intro hc
          rcases List.mem_cons.mp hc with h1 | h1
          · exact h h1.symm
          · exact hm h1

theorem pmf_mem_or_zero {α : Type} [DecidableEq α] (d : DiscreteDist α) (x : α) :
    pmf d x = 0 ∨ pmf d x ∈ d.probabilities := by
  unfold pmf
  cases d.outcomes.findIdx? (· = x) with
  | none => left; rfl
  | some i =>
    by_cases h : i < d.probabilities.length
    · right
      show d.probabilities.getD i 0 ∈ _
      rw [List.getD_eq_getElem?_getD, List.getElem?_eq_getElem h]
      exact List.getElem_mem h
    · left
      show d.probabilities.getD i 0 = 0
      rw [List.getD_eq_getElem?_getD, List.getElem?_eq_none (le_of_not_lt h)]
      rfl

theorem pmf_ge_neg_tol {α : Type} [DecidableEq α] (d : DiscreteDist α)
    (hd : ValidDist d) (x : α) : -tol ≤ pmf d x := by
  rcases pmf_mem_or_zero d x with h | h
  · rw [h]
    norm_num [tol]
  · exact hd.2.1 _ h

theorem sum_pmf_self {α : Type} [DecidableEq α] :
    ∀ (os : List α) (ps : List ℚ), os.Nodup → os.length = ps.length →
      (os.map (pmf ⟨os, ps⟩)).sum = ps.sum
  | [], ps, _, hlen => by
    have hps : ps = [] := by
      cases ps with
      | nil => rfl
      | cons p t => simp at hlen
    subst hps
    simp
  | y :: ys, ps, hnd, hlen => by
    cases ps with
    | nil => simp at hlen
    | cons p ps' =>
      rw [List.map_cons, List.sum_cons, List.sum_cons]
      have hhead : pmf ⟨y :: ys, p :: ps'⟩ y = p := by
        rw [pmf_cons, if_pos rfl]
        rfl
      have hcong : ∀ z ∈ ys, pmf ⟨y :: ys, p :: ps'⟩ z = pmf ⟨ys, ps'⟩ z := by
        intro z hz
        rw [pmf_cons, if_neg (fun h => (List.nodup_cons.mp hnd).1 (by rw [h]; exact hz))]
        rfl
      rw [hhead, List.map_congr_left hcong,
        sum_pmf_self ys ps' (List.nodup_cons.mp hnd).2 (by simpa using hlen)]

theorem kl_bit_zero_of_pmf_eq (dx dy : DiscreteDist ℤ)
    (h : ∀ x, pmf dy x = pmf dx x) :
    kullbackLeiblerDivergence dx dy = InformationUnit.bit 0 := by
  rw [kullbackLeiblerDivergence]
  congr 1
  apply List.sum_eq_zero
  intro t ht
  rcases List.mem_map.mp ht with ⟨x, _, rfl⟩
  rw [h x]
  rcases eq_or_ne (pmf dx x) 0 with h0 | h0
  · rw [h0]
    simp
  · rw [div_self (by exact_mod_cast h0 : ((pmf dx x : ℚ) : ℝ) ≠ 0),
      Real.logb_one, mul_zero]

theorem average_self_eq (P : DiscreteDist ℤ) (hP : ValidDist P)
    (hnd : P.outcomes.Nodup) :
    averageDiscreteDistributions P P
      = some ⟨(P.outcomes ++ P.outcomes).dedup,
          ((P.outcomes ++ P.outcomes).dedup).map
            (fun x => (pmf P x + pmf P x) / 2)⟩ := by
  rw [averageDiscreteDistributions, mkDist, if_pos ?hc]
  case hc =>
    have hgL : ∀ x : ℤ, (pmf P x + pmf P x) / 2 = pmf P x := fun x => by ring
    refine ⟨by simp, ?_, ?_⟩
    · intro q hq
      rcases List.mem_map.mp hq with ⟨x, _, rfl⟩
      rw [hgL x]
      exact pmf_ge_neg_tol P hP x
    · have hperm : ((P.outcomes ++ P.outcomes).dedup).Perm P.outcomes := by
        apply (List.perm_ext_iff_of_nodup (List.nodup_dedup _) hnd).mpr
        intro a
        simp [List.mem_dedup, List.mem_append]
      have hmap : ((P.outcomes ++ P.outcomes).dedup).map
          (fun x => (pmf P x + pmf P x) / 2)
          = ((P.outcomes ++ P.outcomes).dedup).map (pmf P) :=
        List.map_congr_left (fun x _ => hgL x)
      rw [hmap, (hperm.map (pmf P)).sum_eq,
        sum_pmf_self P.outcomes P.probabilities hnd hP.1]
      exact hP.2.2

theorem pmf_average_self (P : DiscreteDist ℤ) (x : ℤ) :
    pmf ⟨(P.outcomes ++ P.outcomes).dedup,
        ((P.outcomes ++ P.outcomes).dedup).map
          (fun y => (pmf P y + pmf P y) / 2)⟩ x
      = pmf P x := by
  rw [pmf_mk_map]
  by_cases hm : x ∈ (P.outcomes ++ P.outcomes).dedup
  · rw [if_pos hm]
    ring
  · rw [if_neg hm]
    have hx : x ∉ P.outcomes := by
      intro hc
      exact hm (by simp [List.mem_dedup, List.mem_append, hc])
    exact (pmf_eq_zero_of_not_mem P.outcomes P.probabilities x hx).symm

/-- C6 (amended).  For every valid `P` all of whose probabilities are
strictly positive, `KL(P, P)` is `Bit 0`; and `JS(P, P)` is `some (Bit 0)`
if additionally `P`'s outcomes are pairwise distinct.  Both restrictions
are forced by the source: with a zero probability the f64 code computes
`0.0 * log2(0.0/0.0) = NaN` for that term (the same missing zero-probability
special case as the C5 bug), so `KL(P,P)`/`JS(P,P)` are NaN, not 0 — on
strictly positive probabilities IEEE evaluation agrees with this exact-real
embedding term by term; and with duplicated outcomes the averaged
distribution fails its own sum-to-1 validation and the call panics (see the
counterexample). -/
theorem kl_js_self_zero (P : DiscreteDist ℤ) (hP : ValidDist P)
    (hpos : ∀ p ∈ P.probabilities, 0 < p) :
    kullbackLeiblerDivergence P P = InformationUnit.bit 0
      ∧ (P.outcomes.Nodup →
          jensenShannonDivergence P P = some (InformationUnit.bit 0)) := by
  constructor
  · exact kl_bit_zero_of_pmf_eq P P (fun _ => rfl)
  · intro hnd
    rw [jensenShannonDivergence, average_self_eq P hP hnd]
    refine congrArg some ?_
    simp only [kl_bit_zero_of_pmf_eq P _ (pmf_average_self P),
      InformationUnit.add, InformationUnit.apply]
    simp

/-- Counterexample for C6 as stated: `P₀ = new([0,0], [1/2,1/2])` is a valid
distribution (duplicate outcomes pass every `new` assert), but
`JS(P₀, P₀)` panics: the averaged distribution collapses the duplicated
outcome, its probabilities sum to `1/2`, and the inner `new` assert fires —
the call does not return 0. -/
theorem js_self_duplicates_counterexample :
    ValidDist (⟨[0, 0], [1/2, 1/2]⟩ : DiscreteDist ℤ)
      ∧ jensenShannonDivergence ⟨[0, 0], [1/2, 1/2]⟩ ⟨[0, 0], [1/2, 1/2]⟩ = none
      ∧ jensenShannonDivergence ⟨[0, 0], [1/2, 1/2]⟩ ⟨[0, 0], [1/2, 1/2]⟩
          ≠ some (InformationUnit.bit 0) := by
  have hpmf : pmf (⟨[0, 0], [1/2, 1/2]⟩ : DiscreteDist ℤ) 0 = 1/2 := by
    rw [pmf_cons, if_pos rfl]
    rfl
  have hded : (([0, 0] ++ [0, 0] : List ℤ)).dedup = [0] := by decide
  have hnone : jensenShannonDivergence (⟨[0, 0], [1/2, 1/2]⟩ : DiscreteDist ℤ)
      ⟨[0, 0], [1/2, 1/2]⟩ = none := by
    rw [jensenShannonDivergence]
    have havg : averageDiscreteDistributions
        (⟨[0, 0], [1/2, 1/2]⟩ : DiscreteDist ℤ) ⟨[0, 0], [1/2, 1/2]⟩ = none := by
      rw [averageDiscreteDistributions]
      show mkDist (List.dedup ([0, 0] ++ [0, 0]))
        ((List.dedup (([0, 0] : List ℤ) ++ [0, 0])).map _) = none
      rw [hded]
      rw [mkDist, if_neg ?hcond]
      case hcond =>
        intro hc
        have hsum := hc.2.2
        rw [List.map_cons, List.map_nil, List.sum_cons, List.sum_nil, hpmf,
          abs_lt] at hsum
        norm_num [tol] at hsum
    rw [havg]
    rfl
  exact ⟨by norm_num [ValidDist, tol], hnone, by rw [hnone]; simp⟩

/-- Witness for C6 at the valid, strictly-positive, distinct-outcome
distribution `multinomial([1/2, 1/2])`. -/
theorem kl_js_self_zero_witness :
    kullbackLeiblerDivergence ⟨[0, 1], [1/2, 1/2]⟩ ⟨[0, 1], [1/2, 1/2]⟩
        = InformationUnit.bit 0
      ∧ jensenShannonDivergence ⟨[0, 1], [1/2, 1/2]⟩ ⟨[0, 1], [1/2, 1/2]⟩
          = some (InformationUnit.bit 0) := by
  have h := kl_js_self_zero ⟨[0, 1], [1/2, 1/2]⟩ (by norm_num [ValidDist, tol])
    ?hpos
  case hpos =>
    intro p hp
    rcases List.mem_cons.mp hp with h | h
    · rw [h]
      norm_num
    · rw [List.mem_singleton.mp h]
      norm_num
  exact ⟨h.1, h.2 (by decide)⟩

theorem cartesianProduct_pair {α : Type} [Inhabited α] (xs ys : List α) :
    cartesianProduct [xs, ys]
      = (List.range ((1 * xs.length) * ys.length)).map
          (fun i => [xs.getD (i / 1 % xs.length) default,
                     ys.getD (i / (1 * xs.length) % ys.length) default]) := by
  rfl

theorem map_getD_range {α : Type} [Inhabited α] :
    ∀ l : List α, (List.range l.length).map (fun i => l.getD i default) = l
  | [] => by simp
  | a :: t => by
    rw [List.length_cons, List.range_succ_eq_map, List.map_cons, List.map_map]
    show (a :: (List.range t.length).map fun i => (a :: t).getD (i + 1) default) = _
    simp only [List.getD_cons_succ]
    rw [map_getD_range t]

theorem sum_grid (f g : ℕ → ℚ) (m : ℕ) (hm : 0 < m) :
    ∀ n : ℕ, ((List.range (m * n)).map (fun i => f (i % m) * g (i / m))).sum
      = ((List.range m).map f).sum * ((List.range n).map g).sum
  | 0 => by simp
  | n + 1 => by
    rw [Nat.mul_succ, List.range_add, List.map_append, List.sum_append,
      sum_grid f g m hm n]
    have hsec : (List.range m).map ((fun i => f (i % m) * g (i / m))
          ∘ fun x => m * n + x)
        = (List.range m).map (fun r => f r * g n) := by
      apply List.map_congr_left
      intro r hr
      have hrm : r < m := List.mem_range.mp hr
      show f ((m * n + r) % m) * g ((m * n + r) / m) = _
      rw [Nat.add_comm (m * n) r, Nat.add_mul_mod_self_left,
        Nat.add_mul_div_left r n hm, Nat.mod_eq_of_lt hrm,
        Nat.div_eq_of_lt hrm, Nat.zero_add]
    rw [List.map_map, hsec, List.sum_map_mul_right, List.range_succ,
      List.map_append, List.sum_append]
    simp
    ring

theorem getD_nonneg (l : List ℚ) (h : ∀ q ∈ l, 0 ≤ q) (i : ℕ) :
    0 ≤ l.getD i default := by
  by_cases hi : i < l.length
  · apply h
    rw [List.getD_eq_getElem?_getD, List.getElem?_eq_getElem hi]
    exact List.getElem_mem hi
  · rw [List.getD_eq_getElem?_getD, List.getElem?_eq_none (le_of_not_lt hi)]
    exact le_refl 0

theorem nodup_cartesian_pair (xs ys : List ℤ) (hx : xs.Nodup) (hy : ys.Nodup)
    (hx0 : 0 < xs.length) :
    (cartesianProduct [xs, ys]).Nodup := by
  rw [cartesianProduct_pair]
  apply List.Nodup.map_on ?inj (List.nodup_range _)
  case inj =>
    intro i hi i' hi' heq
    simp only [List.cons.injEq, and_true] at heq
    have hmod : i % xs.length = i' % xs.length := by
      have h1 : i / 1 % xs.length < xs.length := Nat.mod_lt _ hx0
      have h2 : i' / 1 % xs.length < xs.length := Nat.mod_lt _ hx0
      have := heq.1
      rw [List.getD_eq_getElem?_getD, List.getD_eq_getElem?_getD,
        List.getElem?_eq_getElem h1, List.getElem?_eq_getElem h2] at this
      have hinj := (List.Nodup.getElem_inj_iff hx).mp (by simpa using this)
      simpa using hinj
    have hdiv : i / xs.length % ys.length = i' / xs.length % ys.length := by
      rcases Nat.eq_zero_or_pos ys.length with hy0 | hy0
      · exfalso
        simp [hy0] at hi
      · have h1 : i / (1 * xs.length) % ys.length < ys.length := Nat.mod_lt _ hy0
        have h2 : i' / (1 * xs.length) % ys.length < ys.length := Nat.mod_lt _ hy0
        have := heq.2
        rw [List.getD_eq_getElem?_getD, List.getD_eq_getElem?_getD,
          List.getElem?_eq_getElem h1, List.getElem?_eq_getElem h2] at this
        have hinj := (List.Nodup.getElem_inj_iff hy).mp (by simpa using this)
        simpa using hinj
    have hiN : i < xs.length * ys.length := by simpa using List.mem_range.mp hi
    have hiN' : i' < xs.length * ys.length := by simpa using List.mem_range.mp hi'
    have hidiv : i / xs.length < ys.length := Nat.div_lt_of_lt_mul hiN
    have hidiv' : i' / xs.length < ys.length := Nat.div_lt_of_lt_mul hiN'
    rw [Nat.mod_eq_of_lt hidiv, Nat.mod_eq_of_lt hidiv'] at hdiv
    have := Nat.div_add_mod i xs.length
    rw [← Nat.div_add_mod i xs.length, ← Nat.div_add_mod i' xs.length,
      hmod, hdiv]

/-- C7 (amended).  For two distributions with index-aligned vectors,
nonnegative probabilities summing exactly to 1, and pairwise-distinct
outcomes, the joint distribution built by the cartesian-product construction
exists and its measure over the list of all its outcomes is exactly 1.
(With the constructor's `1e-10` sum tolerance instead of exact sums the
measure equals the product of the two probability sums, which can differ
from 1 — see the counterexample.) -/
theorem joint_measure_one (dx dy : DiscreteDist ℤ)
    (hxlen : dx.outcomes.length = dx.probabilities.length)
    (hylen : dy.outcomes.length = dy.probabilities.length)
    (hxnn : ∀ p ∈ dx.probabilities, 0 ≤ p)
    (hynn : ∀ p ∈ dy.probabilities, 0 ≤ p)
    (hxsum : dx.probabilities.sum = 1)
    (hysum : dy.probabilities.sum = 1)
    (hxnd : dx.outcomes.Nodup) (hynd : dy.outcomes.Nodup) :
    ∃ J, jointDistribution dx dy = some J ∧ measure J J.outcomes = some 1 := by
  have hnp0 : 0 < dx.probabilities.length := by
    rcases List.eq_nil_or_concat dx.probabilities with h | _
    · rw [h] at hxsum
      simp at hxsum
    · cases hpl : dx.probabilities with
      | nil => rw [hpl] at hxsum; simp at hxsum
      | cons a t => simp
  have hnp1 : 0 < dy.probabilities.length := by
    cases hpl : dy.probabilities with
    | nil => rw [hpl] at hysum; simp at hysum
    | cons a t => simp
  have hPr : (cartesianProduct [dx.probabilities, dy.probabilities]).map
      (fun x => x.foldl (fun prod y => prod * y) 1)
      = (List.range (dx.probabilities.length * dy.probabilities.length)).map
        (fun i => dx.probabilities.getD (i % dx.probabilities.length) default
          * dy.probabilities.getD
              (i / dx.probabilities.length % dy.probabilities.length) default) := by
    rw [cartesianProduct_pair, List.map_map]
    simp only [one_mul, Nat.div_one]
    apply List.map_congr_left
    intro i _
    show List.foldl (fun prod y => prod * y) 1 [_, _] = _
    rw [List.foldl_cons, List.foldl_cons, List.foldl_nil, one_mul]
  have hsumPr : ((cartesianProduct [dx.probabilities, dy.probabilities]).map
      (fun x => x.foldl (fun prod y => prod * y) 1)).sum = 1 := by
    rw [hPr]
    calc ((List.range (dx.probabilities.length * dy.probabilities.length)).map
        (fun i => dx.probabilities.getD (i % dx.probabilities.length) default
          * dy.probabilities.getD
              (i / dx.probabilities.length % dy.probabilities.length) default)).sum
        = ((List.range dx.probabilities.length).map
            (fun a => dx.probabilities.getD a default)).sum
          * ((List.range dy.probabilities.length).map
            (fun b => dy.probabilities.getD
              (b % dy.probabilities.length) default)).sum :=
          sum_grid (fun a => dx.probabilities.getD a default)
            (fun b => dy.probabilities.getD (b % dy.probabilities.length) default)
            dx.probabilities.length hnp0 dy.probabilities.length
      _ = 1 := by
          have hmg : (List.range dy.probabilities.length).map
              (fun b => dy.probabilities.getD (b % dy.probabilities.length) default)
              = (List.range dy.probabilities.length).map
                (fun b => dy.probabilities.getD b default) := by
            apply List.map_congr_left
            intro b hb
            rw [Nat.mod_eq_of_lt (List.mem_range.mp hb)]
          rw [hmg, map_getD_range, map_getD_range, hxsum, hysum]
          norm_num
  have hO : (cartesianProduct [dx.outcomes, dy.outcomes]).length
      = dx.outcomes.length * dy.outcomes.length := by
    rw [cartesianProduct_pair, List.length_map, List.length_range, one_mul]
  have hPrLen : ((cartesianProduct [dx.probabilities, dy.probabilities]).map
      (fun x => x.foldl (fun prod y => prod * y) 1)).length
      = dx.probabilities.length * dy.probabilities.length := by
    rw [hPr, List.length_map, List.length_range]
  have hmk : jointDistribution dx dy
      = some ⟨cartesianProduct [dx.outcomes, dy.outcomes],
          (cartesianProduct [dx.probabilities, dy.probabilities]).map
            (fun x => x.foldl (fun prod y => prod * y) 1)⟩ := by
    rw [jointDistribution, mkDist, if_pos ?hc]
    case hc =>
      refine ⟨by rw [hO, hPrLen, hxlen, hylen], ?_, ?_⟩
      · intro q hq
        rw [hPr] at hq
        rcases List.mem_map.mp hq with ⟨i, _, rfl⟩
        have h1 := getD_nonneg dx.probabilities hxnn (i % dx.probabilities.length)
        have h2 := getD_nonneg dy.probabilities hynn
          (i / dx.probabilities.length % dy.probabilities.length)
        have h3 : (0:ℚ) < tol := by norm_num [tol]
        nlinarith
      · rw [hsumPr]
        norm_num [tol]
  refine ⟨_, hmk, ?_⟩
  have hnd : (cartesianProduct [dx.outcomes, dy.outcomes]).Nodup :=
    nodup_cartesian_pair dx.outcomes dy.outcomes hxnd hynd
      (by rw [hxlen]; exact hnp0)
  rw [measure, if_pos hnd]
  refine congrArg some ?_
  rw [sum_pmf_self (cartesianProduct [dx.outcomes, dy.outcomes])
    ((cartesianProduct [dx.probabilities, dy.probabilities]).map
      (fun x => x.foldl (fun prod y => prod * y) 1)) hnd
    (by rw [hO, hPrLen, hxlen, hylen]), hsumPr]

/-- Counterexample for C7 as stated: with the constructor's `1e-10` sum
tolerance, `A = new([0,1], [1/2, 1/2 - 5e-11])` is valid, the joint
distribution of `A` with itself constructs successfully (its probability sum
`(1 - 5e-11)²` is still within tolerance), but the measure over all its
outcomes is `(1 - 5e-11)² ≠ 1`. -/
theorem joint_measure_tolerance_counterexample :
    ValidDist (⟨[0, 1], [1/2, 1/2 - 1/20000000000]⟩ : DiscreteDist ℤ)
      ∧ ((jointDistribution ⟨[0, 1], [1/2, 1/2 - 1/20000000000]⟩
            ⟨[0, 1], [1/2, 1/2 - 1/20000000000]⟩).bind
          (fun j => measure j j.outcomes)) ≠ some 1 := by
  constructor
  · refine ⟨by simp, ?_, by norm_num [abs_lt, tol]⟩
    intro p hp
    rcases List.mem_cons.mp hp with h | h
    · rw [h]
      norm_num [tol]
    · rw [List.mem_singleton.mp h]
      norm_num [tol]
  · have hO : cartesianProduct [([0, 1] : List ℤ), [0, 1]]
        = [[0, 0], [1, 0], [0, 1], [1, 1]] := by decide
    have hP : cartesianProduct
        [[(1:ℚ)/2, 1/2 - 1/20000000000], [1/2, 1/2 - 1/20000000000]]
        = [[1/2, 1/2], [1/2 - 1/20000000000, 1/2],
           [1/2, 1/2 - 1/20000000000],
           [1/2 - 1/20000000000, 1/2 - 1/20000000000]] := by
      rw [cartesianProduct_pair]
      norm_num [List.range_succ]
    show (mkDist (cartesianProduct [([0, 1] : List ℤ), [0, 1]])
        ((cartesianProduct
          [[(1:ℚ)/2, 1/2 - 1/20000000000], [1/2, 1/2 - 1/20000000000]]).map
          (fun x => x.foldl (fun prod y => prod * y) 1))).bind
        (fun j => measure j j.outcomes) ≠ some 1
    rw [hO, hP]
    simp only [List.map_cons, List.map_nil, List.foldl_cons, List.foldl_nil,
      one_mul]
    rw [mkDist, if_pos ?hcond]
    case hcond =>
      refine ⟨by simp, ?_, by norm_num [abs_lt, tol]⟩
      intro p hp
      simp only [List.mem_cons, List.mem_singleton, List.not_mem_nil,
        or_false] at hp
      rcases hp with h | h | h | h <;>
        · rw [h]
          norm_num [tol]
    show measure (⟨[[0, 0], [1, 0], [0, 1], [1, 1]], _⟩ : DiscreteDist (List ℤ))
        [[0, 0], [1, 0], [0, 1], [1, 1]] ≠ some 1
    rw [measure, if_pos (by decide)]
    simp only [List.map_cons, List.map_nil, List.sum_cons, List.sum_nil,
      ne_eq, Option.some_inj]
    norm_num [pmf_cons, pmf_nil]

/-- Witness for C7 at `A = B = new([0,1], [1/2, 1/2])` (exact sums, distinct
outcomes): the joint measure over all outcomes is exactly 1. -/
theorem joint_measure_one_witness :
    ∃ J, jointDistribution ⟨[0, 1], [1/2, 1/2]⟩ ⟨[0, 1], [1/2, 1/2]⟩ = some J
      ∧ measure J J.outcomes = some 1 := by
  apply joint_measure_one ⟨[0, 1], [1/2, 1/2]⟩ ⟨[0, 1], [1/2, 1/2]⟩
    (by simp) (by simp) ?x1 ?x2 (by norm_num) (by norm_num)
    (by decide) (by decide)
  case x1 =>
    intro p hp
    rcases List.mem_cons.mp hp with h | h
    · rw [h]; norm_num
    · rw [List.mem_singleton.mp h]; norm_num
  case x2 =>
    intro p hp
    rcases List.mem_cons.mp hp with h | h
    · rw [h]; norm_num
    · rw [List.mem_singleton.mp h]; norm_num

end Claims

end Ko
